import Mathlib

/-! Musical intervals: package `interval` (`pkg/interval/interval.go`).

A shallow embedding of the Go package. Conventions:

* Go's `int` is the 64-bit two's-complement integer. Values are carried in
  `Int`; every arithmetic operation of the source (`+`, `-`, unary `-`, `*`)
  is followed by `wrap`, the reduction into `-2^63 .. 2^63-1`. `IsInt x` says
  that `x` is a value of Go's `int`.
* Integer division `/` of Go truncates towards zero: `Int.tdiv`.
* `float64(x)` rounds an integer to the nearest binary64 number, ties to
  even; the result is again an integer and is carried in `Int`. All binary64
  values that the package handles are integers (conversions of integers, and
  remainders of those by 7 or 12), so `int(f)` is the identity on them.
* A Go `panic` is an `Except.error` carrying a `Panic` value that tells the
  explicit panics of the source from the run-time panic of an indexing
  expression with a negative index.
-/

namespace MT

/-- The ways a call of the package aborts. -/
inductive Panic where
  /-- `panic(fmt.Sprintf("interval out of range: %d", interval))` -/
  | intervalOutOfRange (interval : Int)
  /-- Run-time panic of `diatonicToChromaticLookup[interval]`, negative index. -/
  | indexOutOfRange (index : Int)
  /-- `panic(fmt.Sprintf("invalid type: %s", q.Type))` -/
  | invalidType (t : Int)
  /-- `panic("invalid quality")` -/
  | invalidQuality
  deriving DecidableEq, Repr

/-- Equality of results is decidable, so that closed facts evaluate. -/
instance instDecidableEqExcept {ε α : Type} [DecidableEq ε] [DecidableEq α] :
    DecidableEq (Except ε α)
  | .ok a, .ok b => if h : a = b then isTrue (by rw [h]) else isFalse (by simp [h])
  | .error a, .error b => if h : a = b then isTrue (by rw [h]) else isFalse (by simp [h])
  | .ok _, .error _ => isFalse (by simp)
  | .error _, .ok _ => isFalse (by simp)

/-! ## Machine arithmetic -/

/-- The result of an `int` operation whose exact value is `x`: reduction
modulo `2^64` into `-2^63 .. 2^63-1`. -/
def wrap (x : Int) : Int := (x + 2 ^ 63) % 2 ^ 64 - 2 ^ 63

/-- The values of Go's `int`. -/
def IsInt (x : Int) : Prop := -2 ^ 63 ≤ x ∧ x < 2 ^ 63

instance instDecidableIsInt (x : Int) : Decidable (IsInt x) :=
  inferInstanceAs (Decidable (-2 ^ 63 ≤ x ∧ x < 2 ^ 63))

/-- The number of low bits that a magnitude `a` loses in a 53-bit
significand: how often `a` is halved until it is below `2^53`. The fuel
covers magnitudes up to `2^64`. -/
def ulpShift : Nat → Nat → Nat
  | 0, _ => 0
  | fuel + 1, a => if a < 2 ^ 53 then 0 else ulpShift fuel (a / 2) + 1

/-- The conversion `float64(x)` of an `int`: magnitudes below `2^53` are
exact; a larger magnitude keeps its 53 leading bits, rounded to nearest with
ties to the even significand. -/
def float64 (x : Int) : Int :=
  let a := x.natAbs
  if a < 2 ^ 53 then x
  else
    let e := ulpShift 64 a
    let q := a / 2 ^ e
    let r := a % 2 ^ e
    let m := if r > 2 ^ (e - 1) ∨ (r = 2 ^ (e - 1) ∧ q % 2 = 1) then q + 1 else q
    Int.sign x * ((m * 2 ^ e : Nat) : Int)

/-! ## Constants -/

def PerfectT : Int := 0
def MajorT : Int := 1
def MinorT : Int := 2
def AugmentedT : Int := 3
def DiminishedT : Int := 4

def Unison : Int := 1
def Second : Int := 2
def Third : Int := 3
def Fourth : Int := 4
def Fifth : Int := 5
def Sixth : Int := 6
def Seventh : Int := 7
def Octave : Int := 8
def Ninth : Int := 9
def Tenth : Int := 10
def Eleventh : Int := 11
def Twelfth : Int := 12
def Thirteenth : Int := 13
def Fourteenth : Int := 14
def Fiftheenth : Int := 15

/-! ## Data model -/

/-- `type Quality struct { Type, Size int }`; the field `Type` is spelled
`Type'`, `Type` being a reserved word. -/
structure Quality where
  Type' : Int
  Size : Int
  deriving DecidableEq, Repr

/-- `type Interval struct { octaves, diatonic, chromatic int }` -/
structure Interval where
  octaves : Int
  diatonic : Int
  chromatic : Int
  deriving DecidableEq, Repr

/-- Modelled from the spec: `mt_math.Mod` of the package `pkg/math`, which is
not among the sources. The spec describes its result as the remainder of the
division that is "always non-negative". Its arguments are binary64 values;
the callers pass an integer-valued `float64(x)` and the constant 7 or 12, on
which that remainder is the Euclidean one and is computed exactly. -/
def Mod (a b : Int) : Int := a % b

/-- `var diatonicToChromaticLookup = []int{0, 2, 4, 5, 7, 9, 11}` -/
def diatonicToChromaticLookup : List Int := [0, 2, 4, 5, 7, 9, 11]

/-- `func DiatonicToChromatic(interval int) int`: the explicit panic guards
the upper end only; a negative index makes the indexing expression panic. -/
def DiatonicToChromatic (interval : Int) : Except Panic Int :=
  if interval ≥ (diatonicToChromaticLookup.length : Int) then
    .error (.intervalOutOfRange interval)
  else
    if interval < 0 then .error (.indexOutOfRange interval)
    else
      match diatonicToChromaticLookup[interval.toNat]? with
      | some c => .ok c
      | none => .error (.indexOutOfRange interval)

/-- `func perfect(interval int) bool` -/
def perfect (interval : Int) : Bool :=
  interval == 0 || interval == 3 || interval == 4

/-- `func qualityDiff(perfect bool, q Quality) int` -/
def qualityDiff (perfect : Bool) (q : Quality) : Except Panic Int :=
  if q.Type' = PerfectT ∨ q.Type' = MajorT then .ok 0
  else if q.Type' = MinorT then .ok (-1)
  else if q.Type' = AugmentedT then .ok q.Size
  else if q.Type' = DiminishedT then
    if perfect then .ok (wrap (-q.Size)) else .ok (wrap (-wrap (q.Size + 1)))
  else .error .invalidQuality

/-- `func diffQuality(perfect bool, diff int) Quality` -/
def diffQuality (perfect : Bool) (diff : Int) : Quality :=
  if perfect then
    if diff = 0 then ⟨PerfectT, 0⟩
    else if diff > 0 then ⟨AugmentedT, diff⟩
    else ⟨DiminishedT, wrap (-diff)⟩
  else
    if diff = 0 then ⟨MajorT, 0⟩
    else if diff = -1 then ⟨MinorT, 0⟩
    else if diff > 0 then ⟨AugmentedT, diff⟩
    else ⟨DiminishedT, wrap (-wrap (diff + 1))⟩

/-- `func (q Quality) Invert() Quality` -/
def Quality.Invert (q : Quality) : Except Panic Quality :=
  if q.Type' = PerfectT then .ok q
  else if q.Type' = MajorT then .ok ⟨MinorT, q.Size⟩
  else if q.Type' = MinorT then .ok ⟨MajorT, q.Size⟩
  else if q.Type' = AugmentedT then .ok ⟨DiminishedT, q.Size⟩
  else if q.Type' = DiminishedT then .ok ⟨AugmentedT, q.Size⟩
  else .error (.invalidType q.Type')

/-- `func New(val, offset int) Interval`: `(val - 1) / 7.0` is a division of
`int`s (the constant takes the type of the other operand); the step goes
through `float64(val-1)`. -/
def New (val offset : Int) : Except Panic Interval :=
  let octaves := (wrap (val - 1)).tdiv 7
  let diatonic := Mod (float64 (wrap (val - 1))) 7
  match DiatonicToChromatic diatonic with
  | .error e => .error e
  | .ok c => .ok ⟨octaves, diatonic, wrap (c + offset)⟩

/-- `func qualityInterval(quality Quality) func(int) Interval` -/
def qualityInterval (quality : Quality) : Int → Except Panic Interval :=
  fun val =>
    let diatonic := Mod (float64 (wrap (val - 1))) 7
    match qualityDiff (perfect diatonic) quality with
    | .error e => .error e
    | .ok diff => New val diff

def Perfect := qualityInterval ⟨PerfectT, 0⟩
def Major := qualityInterval ⟨MajorT, 0⟩
def Minor := qualityInterval ⟨MinorT, 0⟩
def Augmented := qualityInterval ⟨AugmentedT, 1⟩
def DoublyAugmented := qualityInterval ⟨AugmentedT, 2⟩
def Diminished := qualityInterval ⟨DiminishedT, 1⟩
def DoublyDiminished := qualityInterval ⟨DiminishedT, 2⟩

/-- `func (i Interval) Octaves() int` -/
def Interval.Octaves (i : Interval) : Int := i.octaves

/-- `func (i Interval) Diatonic() int` -/
def Interval.Diatonic (i : Interval) : Int := i.diatonic

/-- `func (i Interval) Chromatic() int` -/
def Interval.Chromatic (i : Interval) : Int := i.chromatic

/-- `func (i Interval) Diff() int` -/
def Interval.Diff (i : Interval) : Except Panic Int :=
  match DiatonicToChromatic i.diatonic with
  | .error e => .error e
  | .ok c => .ok (wrap (i.chromatic - c))

/-- `func (i Interval) Semitones() int` -/
def Interval.Semitones (i : Interval) : Int := wrap (wrap (i.octaves * 12) + i.chromatic)

/-- `func (i Interval) Quality() Quality` -/
def Interval.Quality (i : Interval) : Except Panic MT.Quality :=
  match DiatonicToChromatic i.Diatonic with
  | .error e => .error e
  | .ok c =>
    let quality := diffQuality (perfect i.Diatonic) (wrap (i.Chromatic - c))
    if i.Octaves < 0 then quality.Invert else .ok quality

/-- `func (i Interval) HasQualityType(t int) bool` -/
def Interval.HasQualityType (i : Interval) (t : Int) : Except Panic Bool :=
  match i.Quality with
  | .error e => .error e
  | .ok q => .ok (q.Type' == t)

/-- `func (i Interval) AddInterval(o Interval) Interval`: `diatonics / 7.0`
is a division of `int`s; both remainders go through `float64`. -/
def Interval.AddInterval (i o : Interval) : Interval :=
  let diatonics := wrap (i.Diatonic + o.Diatonic)
  let diatonicOctaves := diatonics.tdiv 7
  let diatonicRemainder := Mod (float64 diatonics) 7
  let octaves := wrap (wrap (i.Octaves + o.Octaves) + diatonicOctaves)
  let chromatic := wrap (i.Chromatic + o.Chromatic)
  let chromatic := if diatonicOctaves > 0 then Mod (float64 chromatic) 12 else chromatic
  ⟨octaves, diatonicRemainder, chromatic⟩

/-! ## Reachable intervals -/

/-- The seven preset constructors of the package. -/
def presets : List (Int → Except Panic Interval) :=
  [Perfect, Major, Minor, Augmented, DoublyAugmented, Diminished, DoublyDiminished]

/-- The intervals that the public constructors produce from sizes of at least
one: results of `New`, results of the preset constructors, and results of
`AddInterval` on two such intervals. -/
inductive Reachable : Interval → Prop where
  | new (size offset : Int) (i : Interval) :
      1 ≤ size → New size offset = .ok i → Reachable i
  | preset (f : Int → Except Panic Interval) (size : Int) (i : Interval) :
      f ∈ presets → 1 ≤ size → f size = .ok i → Reachable i
  | add (a b : Interval) : Reachable a → Reachable b → Reachable (a.AddInterval b)

/-! ## Auxiliary facts -/

/-- A value of `int` is not changed by `wrap`. -/
theorem wrap_of_IsInt (x : Int) (h : IsInt x) : wrap x = x := by
  unfold IsInt at h
  unfold wrap
  omega

/-- The result of `wrap` is a value of `int`. -/
theorem IsInt_wrap (x : Int) : IsInt (wrap x) := by
  unfold IsInt wrap
  omega

/-- A wrapped left summand may be taken exactly. -/
theorem wrap_add_left (x y : Int) : wrap (wrap x + y) = wrap (x + y) := by
  unfold wrap
  omega

/-- A wrapped right summand may be taken exactly. -/
theorem wrap_add_right (x y : Int) : wrap (x + wrap y) = wrap (x + y) := by
  unfold wrap
  omega

/-- A wrapped factor of twelve may be taken exactly. -/
theorem wrap_mul_twelve (x : Int) : wrap (wrap x * 12) = wrap (x * 12) := by
  unfold wrap
  omega

/-- Two exact values wrap to the same `int` exactly when they are congruent
modulo `2^64`. -/
theorem wrap_eq_iff (x y : Int) : wrap x = wrap y ↔ (x - y) % 2 ^ 64 = 0 := by
  unfold wrap
  omega

/-- Magnitudes below `2^53` convert exactly. -/
theorem float64_exact (x : Int) (h : -2 ^ 53 < x ∧ x < 2 ^ 53) : float64 x = x := by
  have ha : x.natAbs < 2 ^ 53 := by omega
  simp only [float64, ha, if_true]

/-- The table lookup succeeds on every step of the range `0..6`. -/
theorem DiatonicToChromatic_ok (d : Int) (h0 : 0 ≤ d) (h6 : d ≤ 6) :
    ∃ c, DiatonicToChromatic d = .ok c := by
  have h : d = 0 ∨ d = 1 ∨ d = 2 ∨ d = 3 ∨ d = 4 ∨ d = 5 ∨ d = 6 := by omega
  rcases h with h | h | h | h | h | h | h <;> subst h <;>
    exact ⟨_, rfl⟩

/-- The interval that `New` builds, for any size: it returns, the step being
a remainder by 7. -/
theorem New_ok (val offset : Int) :
    ∃ c, DiatonicToChromatic (Mod (float64 (wrap (val - 1))) 7) = .ok c ∧
      New val offset = .ok ⟨(wrap (val - 1)).tdiv 7, Mod (float64 (wrap (val - 1))) 7,
        wrap (c + offset)⟩ := by
  obtain ⟨c, hc⟩ := DiatonicToChromatic_ok (Mod (float64 (wrap (val - 1))) 7)
    (by unfold Mod; omega) (by unfold Mod; omega)
  refine ⟨c, hc, ?_⟩
  simp only [New, hc]

/-- Reading the quality of `New size d` for a size of at least one: both
calls return, no inversion happens and the offset is classified as given, on
the step that `New` computed. -/
theorem New_Quality_of_pos (size d : Int) (h : 1 ≤ size) (hi : IsInt size) (hd : IsInt d) :
    (New size d >>= Interval.Quality) =
      .ok (diffQuality (perfect (Mod (float64 (wrap (size - 1))) 7)) d) := by
  obtain ⟨c, hc, hN⟩ := New_ok size d
  have hw : wrap (size - 1) = size - 1 := by
    unfold IsInt at hi
    unfold wrap
    omega
  have ho : ¬ (size - 1).tdiv 7 < 0 :=
    Int.not_lt.mpr (Int.tdiv_nonneg (by omega) (by decide))
  have hdiff : wrap (wrap (c + d) - c) = d := by
    unfold IsInt at hd
    unfold wrap
    omega
  rw [hw] at hc hN ⊢
  simp [hN, bind, Except.bind, Interval.Quality, Interval.Diatonic, Interval.Chromatic,
    Interval.Octaves, hc, ho, hdiff]

/-- The step that `New` and the preset constructors compute is the exact
remainder when the conversion of `size - 1` is exact. -/
theorem step_of_exact (size : Int) (h : 1 ≤ size) (hi : IsInt size)
    (hx : float64 (size - 1) = size - 1) :
    Mod (float64 (wrap (size - 1))) 7 = (size - 1) % 7 := by
  have hw : wrap (size - 1) = size - 1 := by
    unfold IsInt at hi
    unfold wrap
    omega
  rw [hw, hx, Mod]

/-- The preset constructors: the offset that `qualityDiff` returns is handed
to `New`. -/
theorem qualityInterval_of_diff (q : Quality) (size diff : Int)
    (hq : qualityDiff (perfect (Mod (float64 (wrap (size - 1))) 7)) q = .ok diff) :
    qualityInterval q size = New size diff := by
  simp [qualityInterval, hq]

/-- Reading the quality of a preset constructor's interval, for a size of at
least one, classifies the offset that `qualityDiff` returned. -/
theorem qualityInterval_Quality (q : Quality) (size diff : Int) (hs : 1 ≤ size)
    (hi : IsInt size) (hd : IsInt diff)
    (hq : qualityDiff (perfect (Mod (float64 (wrap (size - 1))) 7)) q = .ok diff) :
    (qualityInterval q size >>= Interval.Quality) =
      .ok (diffQuality (perfect (Mod (float64 (wrap (size - 1))) 7)) diff) := by
  rw [qualityInterval_of_diff q size diff hq, New_Quality_of_pos size diff hs hi hd]

/-! ## The two quality tables -/

/-- C1: for every value `diff` of `int` and both values of the
perfect-eligibility flag, `qualityDiff` applied to the result of
`diffQuality` returns (does not abort) and gives back `diff`; the negations
wrap as Go's do, so this includes the least `int`. -/
theorem qualityDiff_diffQuality (p : Bool) (diff : Int) (h : IsInt diff) :
    qualityDiff p (diffQuality p diff) = .ok diff := by
  unfold IsInt at h
  unfold diffQuality qualityDiff PerfectT MajorT MinorT AugmentedT DiminishedT
  cases p <;> simp <;> split_ifs <;> simp_all <;> unfold wrap <;> omega

/-- C1 at the least `int`, where the negation wraps. -/
theorem qualityDiff_diffQuality_witness :
    qualityDiff true (diffQuality true (-9223372036854775808)) =
      .ok (-9223372036854775808) :=
  qualityDiff_diffQuality true (-9223372036854775808) (by decide)

/-! ## Reading the quality back from a constructed interval -/

/-- C2, as stated, fails: the size `2^53 + 4` has the perfect-eligible step
`(size-1) mod 7 = 0`, but `float64(size-1)` rounds `2^53 + 3` up to
`2^53 + 4`, whose remainder is 1, so `New size 0` reads back as `{MajorT,0}`
and not as `{PerfectT,0}` although `d = 0`. -/
theorem New_Quality_perfect_step_counterexample :
    (9007199254740996 - 1 : Int) % 7 = 0 ∧
    float64 (9007199254740996 - 1) = 9007199254740996 ∧
    (New 9007199254740996 0 >>= Interval.Quality) = .ok ⟨MajorT, 0⟩ ∧
    ¬ ((New 9007199254740996 0 >>= Interval.Quality) = .ok ⟨PerfectT, 0⟩ ↔ (0 : Int) = 0) := by
  decide

/-- C2, amended: for a size of at least one whose `size - 1` converts to
`float64` exactly (every size up to `2^53` does) and whose step
`(size-1) mod 7` is one of 0, 3, 4, and for every `int` `d`, the quality read
back from `New size d` is `{PerfectT,0}` exactly when `d = 0`,
`{AugmentedT,d}` exactly when `d > 0` and `{DiminishedT,-d}` (Go's negation)
exactly when `d < 0`. -/
theorem New_Quality_perfect_step (size d : Int) (hs : 1 ≤ size) (hi : IsInt size)
    (hx : float64 (size - 1) = size - 1) (hd : IsInt d)
    (hp : (size - 1) % 7 = 0 ∨ (size - 1) % 7 = 3 ∨ (size - 1) % 7 = 4) :
    ((New size d >>= Interval.Quality) = .ok ⟨PerfectT, 0⟩ ↔ d = 0) ∧
    ((New size d >>= Interval.Quality) = .ok ⟨AugmentedT, d⟩ ↔ d > 0) ∧
    ((New size d >>= Interval.Quality) = .ok ⟨DiminishedT, wrap (-d)⟩ ↔ d < 0) := by
  have hperf : perfect ((size - 1) % 7) = true := by
    rcases hp with h | h | h <;> simp [perfect, h]
  rw [New_Quality_of_pos size d hs hi hd, step_of_exact size hs hi hx, hperf]
  simp only [diffQuality, PerfectT, AugmentedT, DiminishedT, if_true]
  refine ⟨?_, ?_, ?_⟩ <;> split_ifs <;> simp <;> omega

/-- C2, amended, at the augmented fifth `New 5 1`. -/
theorem New_Quality_perfect_step_witness :
    ((New 5 1 >>= Interval.Quality) = .ok ⟨PerfectT, 0⟩ ↔ (1 : Int) = 0) ∧
    ((New 5 1 >>= Interval.Quality) = .ok ⟨AugmentedT, 1⟩ ↔ (1 : Int) > 0) ∧
    ((New 5 1 >>= Interval.Quality) = .ok ⟨DiminishedT, wrap (-1)⟩ ↔ (1 : Int) < 0) :=
  New_Quality_perfect_step 5 1 (by decide) (by decide) (by decide) (by decide) (by decide)

/-- C3, as stated, fails: the size `2^53 + 2` has the imperfect step
`(size-1) mod 7 = 5`, but `float64(size-1)` rounds `2^53 + 1` down to `2^53`,
whose remainder is 4, so `New size 0` reads back as `{PerfectT,0}` and not as
`{MajorT,0}` although `d = 0`. -/
theorem New_Quality_imperfect_step_counterexample :
    (9007199254740994 - 1 : Int) % 7 = 5 ∧
    float64 (9007199254740994 - 1) = 9007199254740992 ∧
    (New 9007199254740994 0 >>= Interval.Quality) = .ok ⟨PerfectT, 0⟩ ∧
    ¬ ((New 9007199254740994 0 >>= Interval.Quality) = .ok ⟨MajorT, 0⟩ ↔ (0 : Int) = 0) := by
  decide

/-- C3, amended: for a size of at least one whose `size - 1` converts to
`float64` exactly (every size up to `2^53` does) and whose step
`(size-1) mod 7` is one of 1, 2, 5, 6, and for every `int` `d`, the quality
read back from `New size d` is `{MajorT,0}` exactly when `d = 0`,
`{MinorT,0}` exactly when `d = -1`, `{AugmentedT,d}` exactly when `d > 0` and
`{DiminishedT,-(d+1)}` (Go's arithmetic) exactly when `d ≤ -2`. -/
theorem New_Quality_imperfect_step (size d : Int) (hs : 1 ≤ size) (hi : IsInt size)
    (hx : float64 (size - 1) = size - 1) (hd : IsInt d)
    (hp : (size - 1) % 7 = 1 ∨ (size - 1) % 7 = 2 ∨ (size - 1) % 7 = 5 ∨
      (size - 1) % 7 = 6) :
    ((New size d >>= Interval.Quality) = .ok ⟨MajorT, 0⟩ ↔ d = 0) ∧
    ((New size d >>= Interval.Quality) = .ok ⟨MinorT, 0⟩ ↔ d = -1) ∧
    ((New size d >>= Interval.Quality) = .ok ⟨AugmentedT, d⟩ ↔ d > 0) ∧
    ((New size d >>= Interval.Quality) = .ok ⟨DiminishedT, wrap (-wrap (d + 1))⟩ ↔
      d ≤ -2) := by
  have hperf : perfect ((size - 1) % 7) = false := by
    rcases hp with h | h | h | h <;> simp [perfect, h]
  rw [New_Quality_of_pos size d hs hi hd, step_of_exact size hs hi hx, hperf]
  simp only [diffQuality, MajorT, MinorT, AugmentedT, DiminishedT, Bool.false_eq_true,
    if_false]
  refine ⟨?_, ?_, ?_, ?_⟩ <;> split_ifs <;> simp <;> omega

/-- C3, amended, at the diminished third `New 3 (-2)`. -/
theorem New_Quality_imperfect_step_witness :
    ((New 3 (-2) >>= Interval.Quality) = .ok ⟨MajorT, 0⟩ ↔ (-2 : Int) = 0) ∧
    ((New 3 (-2) >>= Interval.Quality) = .ok ⟨MinorT, 0⟩ ↔ (-2 : Int) = -1) ∧
    ((New 3 (-2) >>= Interval.Quality) = .ok ⟨AugmentedT, -2⟩ ↔ (-2 : Int) > 0) ∧
    ((New 3 (-2) >>= Interval.Quality) = .ok ⟨DiminishedT, wrap (-wrap (-2 + 1))⟩ ↔
      (-2 : Int) ≤ -2) :=
  New_Quality_imperfect_step 3 (-2) (by decide) (by decide) (by decide) (by decide)
    (by decide)

/-- C4, as stated, fails: the size `2^53 + 4` has the perfect-eligible step
`(size-1) mod 7 = 0`, but the step that `Perfect` computes through
`float64(size-1)` is 1, so `Perfect size` reads back as `{MajorT,0}`. -/
theorem preset_Quality_roundtrip_counterexample :
    (9007199254740996 - 1 : Int) % 7 = 0 ∧
    Perfect 9007199254740996 = .ok ⟨1286742750677285, 1, 2⟩ ∧
    (Perfect 9007199254740996 >>= Interval.Quality) = .ok ⟨MajorT, 0⟩ ∧
    (Perfect 9007199254740996 >>= Interval.Quality) ≠ .ok ⟨PerfectT, 0⟩ := by
  decide

/-- C4, amended: for every size of at least one the quality read back from
`Augmented`, `DoublyAugmented`, `Diminished` and `DoublyDiminished` is the
quality it was built from; when moreover `size - 1` converts to `float64`
exactly (every size up to `2^53` does), `Perfect` reads back as
`{PerfectT,0}` on a perfect-eligible step, and `Major` and `Minor` read back
as `{MajorT,0}` and `{MinorT,0}` on an imperfect step. -/
theorem preset_Quality_roundtrip (size : Int) (hs : 1 ≤ size) (hi : IsInt size) :
    (Augmented size >>= Interval.Quality) = .ok ⟨AugmentedT, 1⟩ ∧
    (DoublyAugmented size >>= Interval.Quality) = .ok ⟨AugmentedT, 2⟩ ∧
    (Diminished size >>= Interval.Quality) = .ok ⟨DiminishedT, 1⟩ ∧
    (DoublyDiminished size >>= Interval.Quality) = .ok ⟨DiminishedT, 2⟩ ∧
    (float64 (size - 1) = size - 1 →
      ((size - 1) % 7 = 0 ∨ (size - 1) % 7 = 3 ∨ (size - 1) % 7 = 4 →
        (Perfect size >>= Interval.Quality) = .ok ⟨PerfectT, 0⟩) ∧
      ((size - 1) % 7 = 1 ∨ (size - 1) % 7 = 2 ∨ (size - 1) % 7 = 5 ∨
          (size - 1) % 7 = 6 →
        (Major size >>= Interval.Quality) = .ok ⟨MajorT, 0⟩ ∧
        (Minor size >>= Interval.Quality) = .ok ⟨MinorT, 0⟩)) := by
  refine ⟨?_, ?_, ?_, ?_, ?_⟩
  · rw [Augmented, qualityInterval_Quality _ size 1 hs hi (by decide)
      (by cases perfect _ <;> rfl)]
    cases perfect _ <;> rfl
  · rw [DoublyAugmented, qualityInterval_Quality _ size 2 hs hi (by decide)
      (by cases perfect _ <;> rfl)]
    cases perfect _ <;> rfl
  · cases h : perfect (Mod (float64 (wrap (size - 1))) 7)
    · rw [Diminished, qualityInterval_Quality _ size (-2) hs hi (by decide)
        (by rw [h]; decide), h]
      decide
    · rw [Diminished, qualityInterval_Quality _ size (-1) hs hi (by decide)
        (by rw [h]; decide), h]
      decide
  · cases h : perfect (Mod (float64 (wrap (size - 1))) 7)
    · rw [DoublyDiminished, qualityInterval_Quality _ size (-3) hs hi (by decide)
        (by rw [h]; decide), h]
      decide
    · rw [DoublyDiminished, qualityInterval_Quality _ size (-2) hs hi (by decide)
        (by rw [h]; decide), h]
      decide
  · intro hx
    have hstep := step_of_exact size hs hi hx
    constructor
    · intro hp
      have h : perfect (Mod (float64 (wrap (size - 1))) 7) = true := by
        rw [hstep]
        rcases hp with h | h | h <;> simp [perfect, h]
      rw [Perfect, qualityInterval_Quality _ size 0 hs hi (by decide) (by rw [h]; rfl), h]
      rfl
    · intro hp
      have h : perfect (Mod (float64 (wrap (size - 1))) 7) = false := by
        rw [hstep]
        rcases hp with h | h | h | h <;> simp [perfect, h]
      constructor
      · rw [Major, qualityInterval_Quality _ size 0 hs hi (by decide) (by rw [h]; rfl), h]
        rfl
      · rw [Minor, qualityInterval_Quality _ size (-1) hs hi (by decide)
          (by rw [h]; rfl), h]
        rfl

/-- C4, amended, at size `Third`: the four augmented and diminished presets,
and `Major` and `Minor` on this imperfect step. -/
theorem preset_Quality_roundtrip_witness :
    (Augmented Third >>= Interval.Quality) = .ok ⟨AugmentedT, 1⟩ ∧
    (DoublyAugmented Third >>= Interval.Quality) = .ok ⟨AugmentedT, 2⟩ ∧
    (Diminished Third >>= Interval.Quality) = .ok ⟨DiminishedT, 1⟩ ∧
    (DoublyDiminished Third >>= Interval.Quality) = .ok ⟨DiminishedT, 2⟩ ∧
    (float64 (Third - 1) = Third - 1 →
      ((Third - 1) % 7 = 0 ∨ (Third - 1) % 7 = 3 ∨ (Third - 1) % 7 = 4 →
        (Perfect Third >>= Interval.Quality) = .ok ⟨PerfectT, 0⟩) ∧
      ((Third - 1) % 7 = 1 ∨ (Third - 1) % 7 = 2 ∨ (Third - 1) % 7 = 5 ∨
          (Third - 1) % 7 = 6 →
        (Major Third >>= Interval.Quality) = .ok ⟨MajorT, 0⟩ ∧
        (Minor Third >>= Interval.Quality) = .ok ⟨MinorT, 0⟩)) :=
  preset_Quality_roundtrip Third (by decide) (by decide)

/-! ## Composition -/

/-- The carry of `AddInterval` for two steps of the range `0..6`; the sums are
Go's, and the reduction of the chromatic sum goes through `float64`. -/
theorem AddInterval_fields (a b : Interval)
    (ha : 0 ≤ a.diatonic ∧ a.diatonic ≤ 6) (hb : 0 ≤ b.diatonic ∧ b.diatonic ≤ 6) :
    a.AddInterval b =
      if a.diatonic + b.diatonic ≥ 7 then
        ⟨wrap (a.octaves + b.octaves + 1), a.diatonic + b.diatonic - 7,
          Mod (float64 (wrap (a.chromatic + b.chromatic))) 12⟩
      else ⟨wrap (a.octaves + b.octaves), a.diatonic + b.diatonic,
        wrap (a.chromatic + b.chromatic)⟩ := by
  have hw : wrap (a.diatonic + b.diatonic) = a.diatonic + b.diatonic := by
    unfold wrap
    omega
  have hf : float64 (a.diatonic + b.diatonic) = a.diatonic + b.diatonic :=
    float64_exact _ (by omega)
  have ht : (a.diatonic + b.diatonic).tdiv 7 = (a.diatonic + b.diatonic) / 7 :=
    Int.tdiv_eq_ediv (by omega) (by decide)
  simp only [Interval.AddInterval, Interval.Diatonic, Interval.Octaves, Interval.Chromatic,
    hw, hf, ht, Mod]
  unfold wrap
  split_ifs with h1 h2 h2
  · congr 1 <;> omega
  · omega
  · omega
  · congr 1 <;> omega

/-- C6, as stated, fails: `New 7 (2^53 - 10)` is `(0, 6, 2^53 + 1)` and
`New 2 (-2)` is `(0, 1, 0)`; the steps sum to 7, and the chromatic sum
`2^53 + 1` is reduced through `float64`, which rounds it to `2^53`, so the
result has chromatic field 8, while `(2^53 + 1) mod 12` is 9. -/
theorem AddInterval_carry_counterexample :
    New 7 9007199254740982 = .ok ⟨0, 6, 9007199254740993⟩ ∧
    New 2 (-2) = .ok ⟨0, 1, 0⟩ ∧
    Interval.AddInterval ⟨0, 6, 9007199254740993⟩ ⟨0, 1, 0⟩ = ⟨1, 0, 8⟩ ∧
    (9007199254740993 + 0 : Int) % 12 = 9 ∧
    (Interval.AddInterval ⟨0, 6, 9007199254740993⟩ ⟨0, 1, 0⟩).Chromatic ≠
      (9007199254740993 + 0 : Int) % 12 := by
  decide

/-- C6, amended: for steps of the range `0..6` whose sum is seven or more,
`AddInterval` carries one octave, takes seven off the step sum and reduces
the chromatic sum to `float64(sum) mod 12`, a value of `0..11`, which is
`sum mod 12` whenever the sum converts to `float64` exactly (every sum of
magnitude below `2^53` does); when the steps sum to less than seven the three
fields are the plain sums. All sums are Go's `int` sums. -/
theorem AddInterval_carry (a b : Interval)
    (ha : 0 ≤ a.Diatonic ∧ a.Diatonic ≤ 6) (hb : 0 ≤ b.Diatonic ∧ b.Diatonic ≤ 6) :
    (a.Diatonic + b.Diatonic ≥ 7 →
      (a.AddInterval b).Octaves = wrap (a.Octaves + b.Octaves + 1) ∧
      (a.AddInterval b).Diatonic = a.Diatonic + b.Diatonic - 7 ∧
      (a.AddInterval b).Chromatic = Mod (float64 (wrap (a.Chromatic + b.Chromatic))) 12 ∧
      0 ≤ (a.AddInterval b).Chromatic ∧ (a.AddInterval b).Chromatic < 12 ∧
      (float64 (wrap (a.Chromatic + b.Chromatic)) = wrap (a.Chromatic + b.Chromatic) →
        (a.AddInterval b).Chromatic = wrap (a.Chromatic + b.Chromatic) % 12)) ∧
    (a.Diatonic + b.Diatonic < 7 →
      (a.AddInterval b).Octaves = wrap (a.Octaves + b.Octaves) ∧
      (a.AddInterval b).Diatonic = a.Diatonic + b.Diatonic ∧
      (a.AddInterval b).Chromatic = wrap (a.Chromatic + b.Chromatic)) := by
  simp only [Interval.Diatonic, Interval.Octaves, Interval.Chromatic] at *
  rw [AddInterval_fields a b ha hb]
  constructor
  · intro h
    rw [if_pos h]
    refine ⟨rfl, rfl, rfl, ?_, ?_, ?_⟩
    · simp only [Mod]
      omega
    · simp only [Mod]
      omega
    · intro hx
      simp only [Mod, hx]
  · intro h
    rw [if_neg (by omega)]
    exact ⟨rfl, rfl, rfl⟩

/-- C6, amended, at a major seventh `(0,6,11)` stacked on a perfect fifth
`(0,4,7)`. -/
theorem AddInterval_carry_witness :
    ((⟨0, 6, 11⟩ : Interval).Diatonic + (⟨0, 4, 7⟩ : Interval).Diatonic ≥ 7 →
      (Interval.AddInterval ⟨0, 6, 11⟩ ⟨0, 4, 7⟩).Octaves = wrap (0 + 0 + 1) ∧
      (Interval.AddInterval ⟨0, 6, 11⟩ ⟨0, 4, 7⟩).Diatonic = 6 + 4 - 7 ∧
      (Interval.AddInterval ⟨0, 6, 11⟩ ⟨0, 4, 7⟩).Chromatic =
        Mod (float64 (wrap (11 + 7))) 12 ∧
      0 ≤ (Interval.AddInterval ⟨0, 6, 11⟩ ⟨0, 4, 7⟩).Chromatic ∧
      (Interval.AddInterval ⟨0, 6, 11⟩ ⟨0, 4, 7⟩).Chromatic < 12 ∧
      (float64 (wrap (11 + 7)) = wrap (11 + 7) →
        (Interval.AddInterval ⟨0, 6, 11⟩ ⟨0, 4, 7⟩).Chromatic = wrap (11 + 7) % 12)) ∧
    ((⟨0, 6, 11⟩ : Interval).Diatonic + (⟨0, 4, 7⟩ : Interval).Diatonic < 7 →
      (Interval.AddInterval ⟨0, 6, 11⟩ ⟨0, 4, 7⟩).Octaves = wrap (0 + 0) ∧
      (Interval.AddInterval ⟨0, 6, 11⟩ ⟨0, 4, 7⟩).Diatonic = 6 + 4 ∧
      (Interval.AddInterval ⟨0, 6, 11⟩ ⟨0, 4, 7⟩).Chromatic = wrap (11 + 7)) :=
  AddInterval_carry ⟨0, 6, 11⟩ ⟨0, 4, 7⟩ (by decide) (by decide)

/-- With a carry and a chromatic sum of `12..23`, the semitone totals of the
stacked interval and of its parts are congruent modulo `2^64`. -/
theorem carry_congruent (oa ob ca cb : Int)
    (hs : 12 ≤ wrap (ca + cb) ∧ wrap (ca + cb) ≤ 23) :
    ((oa + ob + 1) * 12 + float64 (wrap (ca + cb)) % 12 -
      (oa * 12 + ca + (ob * 12 + cb))) % 2 ^ 64 = 0 := by
  have hf : float64 (wrap (ca + cb)) = wrap (ca + cb) := float64_exact _ (by omega)
  rw [hf]
  unfold wrap at hs ⊢
  omega

/-- With a carry and a chromatic sum outside `12..23`, the two totals are not
congruent modulo `2^64`, whatever the conversion to `float64` yields. -/
theorem carry_not_congruent (oa ob ca cb : Int)
    (hs : ¬ (12 ≤ wrap (ca + cb) ∧ wrap (ca + cb) ≤ 23)) :
    ¬ ((oa + ob + 1) * 12 + float64 (wrap (ca + cb)) % 12 -
      (oa * 12 + ca + (ob * 12 + cb))) % 2 ^ 64 = 0 := by
  generalize float64 (wrap (ca + cb)) = F
  unfold wrap at hs
  omega

/-- C5, as stated, fails: `Perfect Fifth` is `(0,4,7)`, `Diminished Fourth` is
`(0,3,4)`, both have steps in `0..6`, and stacking them gives `(1,0,11)`, 23
semitones, while the two intervals measure 7 + 4 = 11 semitones. -/
theorem AddInterval_Semitones_counterexample :
    Perfect Fifth = .ok ⟨0, 4, 7⟩ ∧ Diminished Fourth = .ok ⟨0, 3, 4⟩ ∧
    Interval.AddInterval ⟨0, 4, 7⟩ ⟨0, 3, 4⟩ = ⟨1, 0, 11⟩ ∧
    ¬ (Interval.AddInterval ⟨0, 4, 7⟩ ⟨0, 3, 4⟩).Semitones =
      Interval.Semitones ⟨0, 4, 7⟩ + Interval.Semitones ⟨0, 3, 4⟩ := by
  decide

/-- C5, amended: for steps of the range `0..6`, stacking preserves the total
semitone distance exactly when the steps sum to less than seven (no carry)
or the chromatic fields sum to a value of `12..23` (the reduction modulo 12
takes off the one octave that the carry adds). The sums are Go's `int` sums:
the statement holds for all field values, wrapping included. -/
theorem AddInterval_Semitones_iff (a b : Interval)
    (ha : 0 ≤ a.Diatonic ∧ a.Diatonic ≤ 6) (hb : 0 ≤ b.Diatonic ∧ b.Diatonic ≤ 6) :
    (a.AddInterval b).Semitones = wrap (a.Semitones + b.Semitones) ↔
      (a.Diatonic + b.Diatonic < 7 ∨
        (12 ≤ wrap (a.Chromatic + b.Chromatic) ∧ wrap (a.Chromatic + b.Chromatic) ≤ 23)) := by
  simp only [Interval.Diatonic, Interval.Chromatic] at *
  rw [AddInterval_fields a b ha hb]
  split_ifs with h
  · simp only [Interval.Semitones, Mod, wrap_add_left, wrap_add_right, wrap_mul_twelve,
      wrap_eq_iff]
    by_cases hs : 12 ≤ wrap (a.chromatic + b.chromatic) ∧ wrap (a.chromatic + b.chromatic) ≤ 23
    · exact ⟨fun _ => Or.inr hs, fun _ => carry_congruent _ _ _ _ hs⟩
    · refine ⟨fun hL => absurd hL (carry_not_congruent _ _ _ _ hs), fun hR => ?_⟩
      rcases hR with h1 | h2
      · omega
      · exact absurd h2 hs
  · simp only [Interval.Semitones, wrap_add_left, wrap_add_right, wrap_mul_twelve, wrap_eq_iff]
    refine ⟨fun _ => Or.inl (by omega), fun _ => ?_⟩
    have h0 : (a.octaves + b.octaves) * 12 + (a.chromatic + b.chromatic) -
        (a.octaves * 12 + a.chromatic + (b.octaves * 12 + b.chromatic)) = 0 := by
      omega
    rw [h0]
    rfl

/-- C5, amended, at a major third `(0,2,4)` and a minor third `(0,2,3)`. -/
theorem AddInterval_Semitones_iff_witness :
    (Interval.AddInterval ⟨0, 2, 4⟩ ⟨0, 2, 3⟩).Semitones =
        wrap (Interval.Semitones ⟨0, 2, 4⟩ + Interval.Semitones ⟨0, 2, 3⟩) ↔
      ((⟨0, 2, 4⟩ : Interval).Diatonic + (⟨0, 2, 3⟩ : Interval).Diatonic < 7 ∨
        (12 ≤ wrap ((⟨0, 2, 4⟩ : Interval).Chromatic + (⟨0, 2, 3⟩ : Interval).Chromatic) ∧
          wrap ((⟨0, 2, 4⟩ : Interval).Chromatic + (⟨0, 2, 3⟩ : Interval).Chromatic) ≤ 23)) :=
  AddInterval_Semitones_iff ⟨0, 2, 4⟩ ⟨0, 2, 3⟩ (by decide) (by decide)

/-- C7: a major third stacked with a minor third is the interval
`(0,4,7)`, which is `Perfect Fifth`, measures 7 semitones and reads back as
`{PerfectT,0}`; every call involved returns. -/
theorem Major_Third_add_Minor_Third :
    (do let a ← Major Third; let b ← Minor Third; pure (a.AddInterval b)) =
      Except.ok (⟨0, 4, 7⟩ : Interval) ∧
    Perfect Fifth = .ok ⟨0, 4, 7⟩ ∧
    Interval.Semitones ⟨0, 4, 7⟩ = 7 ∧
    Interval.Quality ⟨0, 4, 7⟩ = .ok ⟨PerfectT, 0⟩ := by
  decide

/-- C8: the semitone totals of the named intervals: major third 4, minor
third 3, perfect fifth 7, augmented fourth 6, diminished fifth 6, perfect
octave 12; every constructor call returns. -/
theorem named_Semitones :
    (Major Third).map Interval.Semitones = .ok 4 ∧
    (Minor Third).map Interval.Semitones = .ok 3 ∧
    (Perfect Fifth).map Interval.Semitones = .ok 7 ∧
    (Augmented Fourth).map Interval.Semitones = .ok 6 ∧
    (Diminished Fifth).map Interval.Semitones = .ok 6 ∧
    (Perfect Octave).map Interval.Semitones = .ok 12 := by
  decide

/-! ## The raw constructor and the downward reading -/

/-- C9, as stated, fails: for the size `2^53 + 2`, `float64(size-1)` rounds
`2^53 + 1` down to `2^53`, so `New size 0` has step 4, while
`(size-1) mod 7` is 5; with the octave count `floor((size-1)/7)` the identity
`7*Octaves + Diatonic + 1 == size` then fails as well. -/
theorem New_fields_counterexample :
    New 9007199254740994 0 = .ok ⟨1286742750677284, 4, 7⟩ ∧
    (9007199254740994 - 1 : Int) % 7 = 5 ∧
    (9007199254740994 - 1 : Int) / 7 = 1286742750677284 ∧
    (New 9007199254740994 0).map Interval.Diatonic ≠ .ok ((9007199254740994 - 1) % 7) ∧
    (New 9007199254740994 0).map (fun i => 7 * i.Octaves + i.Diatonic + 1) ≠
      .ok 9007199254740994 := by
  decide

/-- C9, amended: for every size of at least one whose `size - 1` converts to
`float64` exactly (every size up to `2^53` does) and every `int` offset,
`New` returns an interval whose step is `(size-1) mod 7`, whose octave count
is the floor of `(size-1)/7` and whose chromatic field is the table entry of
the step plus the offset (Go's sum); so `7*Octaves + Diatonic + 1` is the
size and `Diff` returns the offset. -/
theorem New_fields (size offset : Int) (hs : 1 ≤ size) (hi : IsInt size)
    (hx : float64 (size - 1) = size - 1) (ho : IsInt offset) :
    ∃ i c, New size offset = .ok i ∧
      i.Diatonic = (size - 1) % 7 ∧
      i.Octaves = (size - 1) / 7 ∧
      DiatonicToChromatic ((size - 1) % 7) = .ok c ∧
      i.Chromatic = wrap (c + offset) ∧
      7 * i.Octaves + i.Diatonic + 1 = size ∧
      i.Diff = .ok offset := by
  obtain ⟨c, hc, hN⟩ := New_ok size offset
  have hw : wrap (size - 1) = size - 1 := by
    unfold IsInt at hi
    unfold wrap
    omega
  have ht : (size - 1).tdiv 7 = (size - 1) / 7 := Int.tdiv_eq_ediv (by omega) (by decide)
  have hdiff : wrap (wrap (c + offset) - c) = offset := by
    unfold IsInt at ho
    unfold wrap
    omega
  rw [step_of_exact size hs hi hx] at hc hN
  rw [hw, ht] at hN
  refine ⟨_, c, hN, rfl, rfl, hc, rfl, ?_, ?_⟩
  · simp only [Interval.Octaves, Interval.Diatonic]
    omega
  · simp [Interval.Diff, hc, hdiff]

/-- C9, amended, at the augmented ninth `New 9 1`, the interval `(1,1,3)`. -/
theorem New_fields_witness :
    ∃ i c, New 9 1 = .ok i ∧
      i.Diatonic = (9 - 1) % 7 ∧
      i.Octaves = (9 - 1) / 7 ∧
      DiatonicToChromatic ((9 - 1) % 7) = .ok c ∧
      i.Chromatic = wrap (c + 1) ∧
      7 * i.Octaves + i.Diatonic + 1 = 9 ∧
      i.Diff = .ok 1 :=
  New_fields 9 1 (by decide) (by decide) (by decide) (by decide)

/-- The inversion of a quality that `diffQuality` produced returns. -/
theorem Invert_diffQuality_ok (p : Bool) (diff : Int) :
    ∃ q, (diffQuality p diff).Invert = .ok q := by
  unfold diffQuality Quality.Invert PerfectT MajorT MinorT AugmentedT DiminishedT
  cases p <;> simp <;> split_ifs <;> simp_all

/-- C10: for a step `d` of the range `0..6` and any chromatic field `c`, the
table lookup returns some `n`; with octaves of at least zero `Quality` is
`diffQuality (perfect d) (c - n)` (Go's difference), not inverted; with
octaves below zero `Quality` returns, and is `Invert` applied to the
`Quality` of the interval with the same step and chromatic field and any
octave count of at least zero. -/
theorem Quality_octaves_sign (d c : Int) (h0 : 0 ≤ d) (h6 : d ≤ 6) :
    ∃ n, DiatonicToChromatic d = .ok n ∧
      (∀ o : Int, 0 ≤ o →
        Interval.Quality ⟨o, d, c⟩ = .ok (diffQuality (perfect d) (wrap (c - n)))) ∧
      (∀ o : Int, o < 0 →
        (∃ q, Interval.Quality ⟨o, d, c⟩ = .ok q) ∧
        ∀ o2 : Int, 0 ≤ o2 →
          Interval.Quality ⟨o, d, c⟩ = (Interval.Quality ⟨o2, d, c⟩ >>= Quality.Invert)) := by
  obtain ⟨n, hn⟩ := DiatonicToChromatic_ok d h0 h6
  have hpos : ∀ o : Int, 0 ≤ o →
      Interval.Quality ⟨o, d, c⟩ = .ok (diffQuality (perfect d) (wrap (c - n))) := by
    intro o ho
    have : ¬ o < 0 := by omega
    simp [Interval.Quality, Interval.Diatonic, Interval.Chromatic, Interval.Octaves, hn, this]
  have hneg : ∀ o : Int, o < 0 →
      Interval.Quality ⟨o, d, c⟩ = (diffQuality (perfect d) (wrap (c - n))).Invert := by
    intro o ho
    simp [Interval.Quality, Interval.Diatonic, Interval.Chromatic, Interval.Octaves, hn, ho]
  refine ⟨n, hn, hpos, ?_⟩
  intro o ho
  refine ⟨?_, ?_⟩
  · rw [hneg o ho]
    exact Invert_diffQuality_ok _ _
  · intro o2 ho2
    rw [hneg o ho, hpos o2 ho2]
    rfl

/-- C10 at step 2 with chromatic field 4, the major third and its downward
reading. -/
theorem Quality_octaves_sign_witness :
    ∃ n, DiatonicToChromatic 2 = .ok n ∧
      (∀ o : Int, 0 ≤ o →
        Interval.Quality ⟨o, 2, 4⟩ = .ok (diffQuality (perfect 2) (wrap (4 - n)))) ∧
      (∀ o : Int, o < 0 →
        (∃ q, Interval.Quality ⟨o, 2, 4⟩ = .ok q) ∧
        ∀ o2 : Int, 0 ≤ o2 →
          Interval.Quality ⟨o, 2, 4⟩ = (Interval.Quality ⟨o2, 2, 4⟩ >>= Quality.Invert)) :=
  Quality_octaves_sign 2 4 (by decide) (by decide)

/-! ## Inversion and the abort conditions -/

/-- C11: for every quality whose type is one of the five defined kinds (any
size), inverting twice returns, and gives the quality back. -/
theorem Invert_Invert (q : Quality)
    (hq : q.Type' = PerfectT ∨ q.Type' = MajorT ∨ q.Type' = MinorT ∨
      q.Type' = AugmentedT ∨ q.Type' = DiminishedT) :
    (q.Invert >>= Quality.Invert) = .ok q := by
  obtain ⟨t, s⟩ := q
  simp only at hq
  rcases hq with h | h | h | h | h <;> subst h <;> rfl

/-- C11 at the doubly augmented quality. -/
theorem Invert_Invert_witness :
    ((⟨AugmentedT, 2⟩ : Quality).Invert >>= Quality.Invert) = .ok ⟨AugmentedT, 2⟩ :=
  Invert_Invert ⟨AugmentedT, 2⟩ (by decide)

/-- C12: for every size `s`, `Invert` sends perfect to perfect, major to
minor, minor to major, augmented to diminished and diminished to augmented,
each with the size `s` kept; so for every quality of a defined kind the
result has the size of the argument. -/
theorem Invert_table (s : Int) :
    (⟨PerfectT, s⟩ : Quality).Invert = .ok ⟨PerfectT, s⟩ ∧
    (⟨MajorT, s⟩ : Quality).Invert = .ok ⟨MinorT, s⟩ ∧
    (⟨MinorT, s⟩ : Quality).Invert = .ok ⟨MajorT, s⟩ ∧
    (⟨AugmentedT, s⟩ : Quality).Invert = .ok ⟨DiminishedT, s⟩ ∧
    (⟨DiminishedT, s⟩ : Quality).Invert = .ok ⟨AugmentedT, s⟩ ∧
    (∀ q : Quality, q.Size = s →
      (q.Type' = PerfectT ∨ q.Type' = MajorT ∨ q.Type' = MinorT ∨
        q.Type' = AugmentedT ∨ q.Type' = DiminishedT) →
      ∃ r, q.Invert = .ok r ∧ r.Size = q.Size) := by
  refine ⟨rfl, rfl, rfl, rfl, rfl, ?_⟩
  rintro ⟨t, z⟩ - hq
  simp only at hq
  rcases hq with h | h | h | h | h <;> subst h <;> exact ⟨_, rfl, rfl⟩

/-- C13: `DiatonicToChromatic d` returns the `d`-th entry of
`[0,2,4,5,7,9,11]` for `d` of the range `0..6`; it aborts with the explicit
panic for `d ≥ 7` and with the indexing panic for `d < 0`; so it returns a
value exactly when `d` is in `0..6`. -/
theorem DiatonicToChromatic_spec (d : Int) :
    (0 ≤ d ∧ d ≤ 6 →
      ∃ c, [0, 2, 4, 5, 7, 9, 11][d.toNat]? = some c ∧ DiatonicToChromatic d = .ok c) ∧
    (7 ≤ d → DiatonicToChromatic d = .error (.intervalOutOfRange d)) ∧
    (d < 0 → DiatonicToChromatic d = .error (.indexOutOfRange d)) ∧
    ((∃ c, DiatonicToChromatic d = .ok c) ↔ 0 ≤ d ∧ d ≤ 6) := by
  have hin : 0 ≤ d ∧ d ≤ 6 →
      ∃ c, [0, 2, 4, 5, 7, 9, 11][d.toNat]? = some c ∧ DiatonicToChromatic d = .ok c := by
    rintro ⟨h0, h6⟩
    have h : d = 0 ∨ d = 1 ∨ d = 2 ∨ d = 3 ∨ d = 4 ∨ d = 5 ∨ d = 6 := by omega
    rcases h with h | h | h | h | h | h | h <;> subst h <;> exact ⟨_, rfl, rfl⟩
  have hhi : 7 ≤ d → DiatonicToChromatic d = .error (.intervalOutOfRange d) := by
    intro h
    simp [DiatonicToChromatic, diatonicToChromaticLookup, h]
  have hlo : d < 0 → DiatonicToChromatic d = .error (.indexOutOfRange d) := by
    intro h
    have h7 : ¬ 7 ≤ d := by omega
    simp [DiatonicToChromatic, diatonicToChromaticLookup, h, h7]
  refine ⟨hin, hhi, hlo, ?_, ?_⟩
  · rintro ⟨c, hc⟩
    by_contra hne
    rcases Int.lt_or_le d 0 with h | h
    · rw [hlo h] at hc; cases hc
    · rw [hhi (by omega)] at hc; cases hc
  · intro h
    obtain ⟨c, -, hc⟩ := hin h
    exact ⟨c, hc⟩

/-- C14: `Invert` and `qualityDiff` abort exactly when the type of the
quality is outside the five defined kinds `0..4`; for a type inside, any
size and either flag, both return a value. -/
theorem abort_iff_invalid_Type (p : Bool) (q : Quality) :
    ((∃ e, q.Invert = .error e) ↔ ¬ (0 ≤ q.Type' ∧ q.Type' ≤ 4)) ∧
    ((∃ e, qualityDiff p q = .error e) ↔ ¬ (0 ≤ q.Type' ∧ q.Type' ≤ 4)) ∧
    (0 ≤ q.Type' ∧ q.Type' ≤ 4 →
      (∃ r, q.Invert = .ok r) ∧ (∃ n, qualityDiff p q = .ok n)) := by
  obtain ⟨t, s⟩ := q
  simp only [Quality.Invert, qualityDiff, PerfectT, MajorT, MinorT, AugmentedT, DiminishedT]
  refine ⟨?_, ?_, ?_⟩
  · split_ifs <;> simp <;> omega
  · cases p <;> (split_ifs <;> simp <;> omega)
  · intro h
    constructor
    · split_ifs <;> simp
      omega
    · cases p <;> (split_ifs <;> simp) <;> omega

/-! ## The step invariant -/

/-- Every preset constructor is `New` at some offset, whatever the size. -/
theorem preset_eq_New (f : Int → Except Panic Interval) (hf : f ∈ presets) (size : Int) :
    ∃ diff, f size = New size diff := by
  simp only [presets, List.mem_cons, List.mem_singleton, List.not_mem_nil, or_false] at hf
  rcases hf with h | h | h | h | h | h | h <;> subst h
  · exact ⟨0, qualityInterval_of_diff _ size 0 (by cases perfect _ <;> rfl)⟩
  · exact ⟨0, qualityInterval_of_diff _ size 0 (by cases perfect _ <;> rfl)⟩
  · exact ⟨-1, qualityInterval_of_diff _ size (-1) (by cases perfect _ <;> rfl)⟩
  · exact ⟨1, qualityInterval_of_diff _ size 1 (by cases perfect _ <;> rfl)⟩
  · exact ⟨2, qualityInterval_of_diff _ size 2 (by cases perfect _ <;> rfl)⟩
  · cases h : perfect (Mod (float64 (wrap (size - 1))) 7)
    · exact ⟨-2, qualityInterval_of_diff _ size (-2) (by rw [h]; decide)⟩
    · exact ⟨-1, qualityInterval_of_diff _ size (-1) (by rw [h]; decide)⟩
  · cases h : perfect (Mod (float64 (wrap (size - 1))) 7)
    · exact ⟨-3, qualityInterval_of_diff _ size (-3) (by rw [h]; decide)⟩
    · exact ⟨-2, qualityInterval_of_diff _ size (-2) (by rw [h]; decide)⟩

/-- The step of `New size offset` is in `0..6`: it is a remainder by 7, also
when the conversion to `float64` rounds. -/
theorem New_range (size offset : Int) :
    ∃ i, New size offset = .ok i ∧ 0 ≤ i.Diatonic ∧ i.Diatonic ≤ 6 := by
  obtain ⟨c, -, hN⟩ := New_ok size offset
  refine ⟨_, hN, ?_, ?_⟩ <;> simp only [Interval.Diatonic, Mod] <;> omega

/-- `AddInterval` keeps the step in `0..6`. -/
theorem AddInterval_range (a b : Interval) :
    0 ≤ (a.AddInterval b).Diatonic ∧ (a.AddInterval b).Diatonic ≤ 6 := by
  simp only [Interval.AddInterval, Interval.Diatonic, Mod]
  omega

/-- On an interval whose step is in `0..6` the three readers return. -/
theorem readers_ok (i : Interval) (h : 0 ≤ i.Diatonic ∧ i.Diatonic ≤ 6) :
    ∃ n q, i.Diff = .ok n ∧ i.Quality = .ok q ∧
      ∀ t, i.HasQualityType t = .ok (q.Type' == t) := by
  obtain ⟨o, d, c⟩ := i
  simp only [Interval.Diatonic] at h
  obtain ⟨n, hn⟩ := DiatonicToChromatic_ok d h.1 h.2
  have hq : ∃ q, Interval.Quality ⟨o, d, c⟩ = .ok q := by
    by_cases ho : o < 0
    · obtain ⟨q, hq⟩ := Invert_diffQuality_ok (perfect d) (wrap (c - n))
      exact ⟨q, by simp [Interval.Quality, Interval.Diatonic, Interval.Chromatic,
        Interval.Octaves, hn, ho, hq]⟩
    · exact ⟨diffQuality (perfect d) (wrap (c - n)), by
        simp [Interval.Quality, Interval.Diatonic, Interval.Chromatic, Interval.Octaves, hn, ho]⟩
  obtain ⟨q, hq⟩ := hq
  refine ⟨wrap (c - n), q, by simp [Interval.Diff, hn], hq, ?_⟩
  intro t
  simp [Interval.HasQualityType, hq]

/-- The step of a reachable interval is in `0..6`. -/
theorem Reachable_range (i : Interval) (h : Reachable i) :
    0 ≤ i.Diatonic ∧ i.Diatonic ≤ 6 := by
  induction h with
  | new size offset i hs hN =>
    obtain ⟨j, hj, hr⟩ := New_range size offset
    rw [hN] at hj
    cases hj
    exact hr
  | preset f size i hf hs hN =>
    obtain ⟨diff, hd⟩ := preset_eq_New f hf size
    obtain ⟨j, hj, hr⟩ := New_range size diff
    rw [← hd, hN] at hj
    cases hj
    exact hr
  | add a b _ _ _ _ => exact AddInterval_range a b

/-- C15: for a size of at least one and any offset, `New` and each of the
seven preset constructors return an interval with its step in `0..6`;
`AddInterval` of two intervals with steps in `0..6` has its step in `0..6`;
so on every interval reachable from these constructors `Diff`, `Quality` and
`HasQualityType` return, none hitting the abort of `DiatonicToChromatic`
(`AddInterval` has no abort at all). -/
theorem diatonic_range_invariant :
    (∀ size offset : Int, 1 ≤ size →
      ∃ i, New size offset = .ok i ∧ 0 ≤ i.Diatonic ∧ i.Diatonic ≤ 6) ∧
    (∀ f ∈ presets, ∀ size : Int, 1 ≤ size →
      ∃ i, f size = .ok i ∧ 0 ≤ i.Diatonic ∧ i.Diatonic ≤ 6) ∧
    (∀ a b : Interval, 0 ≤ a.Diatonic ∧ a.Diatonic ≤ 6 → 0 ≤ b.Diatonic ∧ b.Diatonic ≤ 6 →
      0 ≤ (a.AddInterval b).Diatonic ∧ (a.AddInterval b).Diatonic ≤ 6) ∧
    (∀ i : Interval, Reachable i →
      (0 ≤ i.Diatonic ∧ i.Diatonic ≤ 6) ∧
      ∃ n q, i.Diff = .ok n ∧ i.Quality = .ok q ∧
        ∀ t, i.HasQualityType t = .ok (q.Type' == t)) := by
  refine ⟨fun size offset _ => New_range size offset, ?_,
    fun a b _ _ => AddInterval_range a b, ?_⟩
  · intro f hf size _
    obtain ⟨diff, hd⟩ := preset_eq_New f hf size
    rw [hd]
    exact New_range size diff
  · intro i hi
    exact ⟨Reachable_range i hi, readers_ok i (Reachable_range i hi)⟩

/-! ## Sizes below one -/

/-- For a size below one (of magnitude below `2^53`) whose `size - 1` is no
multiple of seven, `New` returns an interval whose octave count is one above
the floor of `(size-1)/7`, while its step is the non-negative remainder: the
two no longer add up to `size - 1`. -/
theorem New_of_nonpos (size offset : Int) (hs : size ≤ 0) (hl : -2 ^ 53 < size - 1)
    (hm : (size - 1) % 7 ≠ 0) :
    ∃ i, New size offset = .ok i ∧ i.Diatonic = (size - 1) % 7 ∧
      i.Octaves = (size - 1) / 7 + 1 ∧ 7 * i.Octaves + i.Diatonic = size - 1 + 7 := by
  obtain ⟨c, -, hN⟩ := New_ok size offset
  have hw : wrap (size - 1) = size - 1 := by
    unfold wrap
    omega
  have hf : float64 (size - 1) = size - 1 := float64_exact _ (by omega)
  have ht : (size - 1).tdiv 7 = (size - 1) / 7 + 1 := by
    have h1 : (size - 1).tdiv 7 = -((-(size - 1)).tdiv 7) := by
      rw [Int.neg_tdiv, Int.neg_neg]
    rw [h1, Int.tdiv_eq_ediv (by omega) (by decide)]
    omega
  rw [hw, hf, ht] at hN
  refine ⟨_, hN, rfl, rfl, ?_⟩
  simp only [Interval.Octaves, Interval.Diatonic, Mod]
  omega

/-- C16 fails at size 0: `New 0 0` is `(0,6,11)`, octave count 0, while the
floor of `(0-1)/7` is `-1` (the remainder 6 is as claimed); so
`7*Octaves + Diatonic` is 6, not `size - 1 = -1`. -/
theorem New_zero_octaves :
    New 0 0 = .ok ⟨0, 6, 11⟩ ∧
    ((0 : Int) - 1) / 7 = -1 ∧ ((0 : Int) - 1) % 7 = 6 ∧
    (New 0 0).map Interval.Octaves ≠ .ok (((0 : Int) - 1) / 7) ∧
    (New 0 0).map (fun i => 7 * i.Octaves + i.Diatonic) = .ok 6 := by
  decide

/-! ## Canonical qualities -/

/-- The size of a diminished quality on a perfect-eligible step is at least
one, except for the least `int`, whose negation wraps onto itself. -/
theorem one_le_wrap_neg (diff : Int) (hd : IsInt diff) (hne : diff ≠ -2 ^ 63)
    (h0 : ¬ diff = 0) (h1 : ¬ diff > 0) : 1 ≤ wrap (-diff) := by
  unfold IsInt at hd
  unfold wrap
  omega

/-- The size of a diminished quality on an imperfect step is at least one. -/
theorem one_le_wrap_neg_succ (diff : Int) (hd : IsInt diff)
    (h0 : ¬ diff = 0) (h1 : ¬ diff = -1) (h2 : ¬ diff > 0) :
    1 ≤ wrap (-wrap (diff + 1)) := by
  unfold IsInt at hd
  unfold wrap
  omega

/-- The quality that `diffQuality` produces for an `int` offset is canonical
and fits the flag, unless the flag is set and the offset is the least `int`. -/
theorem diffQuality_canonical (p : Bool) (diff : Int) (hd : IsInt diff)
    (hne : p = false ∨ diff ≠ -2 ^ 63) :
    ((diffQuality p diff).Type' = PerfectT ∨ (diffQuality p diff).Type' = MajorT ∨
        (diffQuality p diff).Type' = MinorT → (diffQuality p diff).Size = 0) ∧
    ((diffQuality p diff).Type' = AugmentedT ∨ (diffQuality p diff).Type' = DiminishedT →
        1 ≤ (diffQuality p diff).Size) ∧
    ((diffQuality p diff).Type' = PerfectT → p = true) ∧
    ((diffQuality p diff).Type' = MajorT ∨ (diffQuality p diff).Type' = MinorT →
        p = false) ∧
    (0 ≤ (diffQuality p diff).Type' ∧ (diffQuality p diff).Type' ≤ 4) := by
  have hA : p = true → ¬ diff = 0 → ¬ diff > 0 → 1 ≤ wrap (-diff) := by
    intro hp
    rcases hne with h | h
    · rw [hp] at h
      cases h
    · exact one_le_wrap_neg diff hd h
  have hB := one_le_wrap_neg_succ diff hd
  clear hd hne
  cases p
  · simp only [diffQuality, Bool.false_eq_true, if_false]
    split_ifs with h0 h1 h2
    · decide
    · decide
    · refine ⟨?_, ?_, ?_, ?_, ?_⟩ <;> simp [PerfectT, MajorT, MinorT, AugmentedT, DiminishedT]
      omega
    · refine ⟨?_, ?_, ?_, ?_, ?_⟩ <;> simp [PerfectT, MajorT, MinorT, AugmentedT, DiminishedT]
      exact hB h0 h1 (by omega)
  · simp only [diffQuality, if_true]
    split_ifs with h0 h2
    · decide
    · refine ⟨?_, ?_, ?_, ?_, ?_⟩ <;> simp [PerfectT, MajorT, MinorT, AugmentedT, DiminishedT]
      omega
    · refine ⟨?_, ?_, ?_, ?_, ?_⟩ <;> simp [PerfectT, MajorT, MinorT, AugmentedT, DiminishedT]
      exact hA rfl h0 (by omega)

/-- `Invert` on a quality of a defined kind returns, keeps the size and maps
each of the classes perfect, major-or-minor, augmented-or-diminished onto
itself. -/
theorem Invert_classes (q : Quality) (hT : 0 ≤ q.Type' ∧ q.Type' ≤ 4) :
    ∃ r, q.Invert = .ok r ∧ r.Size = q.Size ∧
      (r.Type' = PerfectT ↔ q.Type' = PerfectT) ∧
      (r.Type' = MajorT ∨ r.Type' = MinorT ↔ q.Type' = MajorT ∨ q.Type' = MinorT) ∧
      (r.Type' = AugmentedT ∨ r.Type' = DiminishedT ↔
        q.Type' = AugmentedT ∨ q.Type' = DiminishedT) ∧
      (0 ≤ r.Type' ∧ r.Type' ≤ 4) := by
  obtain ⟨t, s⟩ := q
  simp only at hT
  have h : t = 0 ∨ t = 1 ∨ t = 2 ∨ t = 3 ∨ t = 4 := by omega
  rcases h with h | h | h | h | h <;> subst h <;>
    refine ⟨_, rfl, rfl, ?_, ?_, ?_, ?_⟩ <;>
    simp [PerfectT, MajorT, MinorT, AugmentedT, DiminishedT]

/-- The flag `perfect d` on a step of `0..6`, read as a list of steps. -/
theorem perfect_steps (d : Int) (h0 : 0 ≤ d) (h6 : d ≤ 6) :
    (perfect d = true → d = 0 ∨ d = 3 ∨ d = 4) ∧
    (perfect d = false → d = 1 ∨ d = 2 ∨ d = 5 ∨ d = 6) := by
  have h : d = 0 ∨ d = 1 ∨ d = 2 ∨ d = 3 ∨ d = 4 ∨ d = 5 ∨ d = 6 := by omega
  rcases h with h | h | h | h | h | h | h <;> subst h <;> decide

/-- C17, as stated, fails: `New 1 (-2^63)` is the interval `(0, 0, -2^63)`,
step 0, and its offset is the least `int`, whose negation wraps onto itself;
`Quality` returns `{DiminishedT, -2^63}`, a size below 1. -/
theorem Quality_canonical_counterexample :
    New 1 (-9223372036854775808) = .ok ⟨0, 0, -9223372036854775808⟩ ∧
    Interval.Quality ⟨0, 0, -9223372036854775808⟩ =
      .ok ⟨DiminishedT, -9223372036854775808⟩ ∧
    ¬ (1 : Int) ≤ -9223372036854775808 := by
  decide

/-- C17, amended: for every interval whose step is in `0..6` (any octave
count, any chromatic field), except on a perfect-eligible step with the
offset `Diff()` equal to the least `int`, `Quality` returns a canonical
quality: its type is one of the five kinds, the size is 0 for the types
perfect, major and minor and at least 1 for augmented and diminished; the
type is perfect only on the steps 0, 3, 4 and major or minor only on the
steps 1, 2, 5, 6. -/
theorem Quality_canonical (i : Interval) (h : 0 ≤ i.Diatonic ∧ i.Diatonic ≤ 6)
    (hne : perfect i.Diatonic = false ∨ i.Diff ≠ .ok (-2 ^ 63)) :
    ∃ q, i.Quality = .ok q ∧
      (0 ≤ q.Type' ∧ q.Type' ≤ 4) ∧
      (q.Type' = PerfectT ∨ q.Type' = MajorT ∨ q.Type' = MinorT → q.Size = 0) ∧
      (q.Type' = AugmentedT ∨ q.Type' = DiminishedT → 1 ≤ q.Size) ∧
      (q.Type' = PerfectT → i.Diatonic = 0 ∨ i.Diatonic = 3 ∨ i.Diatonic = 4) ∧
      (q.Type' = MajorT ∨ q.Type' = MinorT →
        i.Diatonic = 1 ∨ i.Diatonic = 2 ∨ i.Diatonic = 5 ∨ i.Diatonic = 6) := by
  obtain ⟨o, d, c⟩ := i
  simp only [Interval.Diatonic] at h hne ⊢
  obtain ⟨n, hn⟩ := DiatonicToChromatic_ok d h.1 h.2
  obtain ⟨hpt, hpf⟩ := perfect_steps d h.1 h.2
  have hne2 : perfect d = false ∨ wrap (c - n) ≠ -2 ^ 63 := by
    rcases hne with h1 | h1
    · exact Or.inl h1
    · refine Or.inr (fun hw => h1 ?_)
      simp only [Interval.Diff, hn, hw]
  obtain ⟨h1, h2, h3, h4, h5⟩ :=
    diffQuality_canonical (perfect d) (wrap (c - n)) (IsInt_wrap _) hne2
  by_cases ho : o < 0
  · obtain ⟨r, hr, hsz, hP, hM, hA, hT⟩ :=
      Invert_classes (diffQuality (perfect d) (wrap (c - n))) h5
    refine ⟨r, ?_, hT, ?_, ?_, ?_, ?_⟩
    · simp [Interval.Quality, Interval.Diatonic, Interval.Chromatic, Interval.Octaves, hn, ho,
        hr]
    · intro hq
      rw [hsz]
      rcases hq with hq | hq | hq
      · exact h1 (Or.inl (hP.mp hq))
      · rcases hM.mp (Or.inl hq) with hq2 | hq2
        · exact h1 (Or.inr (Or.inl hq2))
        · exact h1 (Or.inr (Or.inr hq2))
      · rcases hM.mp (Or.inr hq) with hq2 | hq2
        · exact h1 (Or.inr (Or.inl hq2))
        · exact h1 (Or.inr (Or.inr hq2))
    · intro hq
      rw [hsz]
      exact h2 (hA.mp hq)
    · intro hq
      exact hpt (h3 (hP.mp hq))
    · intro hq
      exact hpf (h4 (hM.mp hq))
  · refine ⟨diffQuality (perfect d) (wrap (c - n)), ?_, h5, h1, h2, fun hp => hpt (h3 hp),
      fun hm => hpf (h4 hm)⟩
    simp [Interval.Quality, Interval.Diatonic, Interval.Chromatic, Interval.Octaves, hn, ho]

/-- C17, amended, at the downward interval `(-1, 2, 4)`, which reads as
minor. -/
theorem Quality_canonical_witness :
    ∃ q, Interval.Quality ⟨-1, 2, 4⟩ = .ok q ∧
      (0 ≤ q.Type' ∧ q.Type' ≤ 4) ∧
      (q.Type' = PerfectT ∨ q.Type' = MajorT ∨ q.Type' = MinorT → q.Size = 0) ∧
      (q.Type' = AugmentedT ∨ q.Type' = DiminishedT → 1 ≤ q.Size) ∧
      (q.Type' = PerfectT → (2 : Int) = 0 ∨ (2 : Int) = 3 ∨ (2 : Int) = 4) ∧
      (q.Type' = MajorT ∨ q.Type' = MinorT →
        (2 : Int) = 1 ∨ (2 : Int) = 2 ∨ (2 : Int) = 5 ∨ (2 : Int) = 6) :=
  Quality_canonical ⟨-1, 2, 4⟩ (by decide) (by decide)

/-! ## Algebra of composition -/

/-- C18: `AddInterval` is commutative, all three fields equal; this holds for
all intervals, in particular for those with steps in `0..6`. -/
theorem AddInterval_comm (a b : Interval) : a.AddInterval b = b.AddInterval a := by
  simp only [Interval.AddInterval, Interval.Diatonic, Interval.Octaves, Interval.Chromatic,
    Int.add_comm b.diatonic a.diatonic, Int.add_comm b.octaves a.octaves,
    Int.add_comm b.chromatic a.chromatic]

/-- C19: `Perfect Unison` is the interval `(0,0,0)`, and for every interval
`a` whose step is in `0..6` (any octave count and chromatic field of `int`)
adding it on either side gives `a` back. -/
theorem AddInterval_Perfect_Unison (a : Interval) (h : 0 ≤ a.Diatonic ∧ a.Diatonic ≤ 6)
    (ho : IsInt a.Octaves) (hc : IsInt a.Chromatic) :
    Perfect Unison = .ok ⟨0, 0, 0⟩ ∧
    a.AddInterval ⟨0, 0, 0⟩ = a ∧ Interval.AddInterval ⟨0, 0, 0⟩ a = a := by
  obtain ⟨o, d, c⟩ := a
  simp only [Interval.Diatonic, Interval.Octaves, Interval.Chromatic] at h ho hc
  have hz : (0 : Int) ≤ 0 ∧ (0 : Int) ≤ 6 := by decide
  have hwo : wrap o = o := wrap_of_IsInt o ho
  have hwc : wrap c = c := wrap_of_IsInt c hc
  refine ⟨by decide, ?_, ?_⟩
  · rw [AddInterval_fields _ _ h hz, if_neg (by simp only; omega)]
    simp [hwo, hwc]
  · rw [AddInterval_fields _ _ hz h, if_neg (by simp only; omega)]
    simp [hwo, hwc]

/-- C19 at `(2, 6, 40)`, a chromatic field outside `0..11`. -/
theorem AddInterval_Perfect_Unison_witness :
    Perfect Unison = .ok ⟨0, 0, 0⟩ ∧
    Interval.AddInterval ⟨2, 6, 40⟩ ⟨0, 0, 0⟩ = ⟨2, 6, 40⟩ ∧
    Interval.AddInterval ⟨0, 0, 0⟩ ⟨2, 6, 40⟩ = ⟨2, 6, 40⟩ :=
  AddInterval_Perfect_Unison ⟨2, 6, 40⟩ (by decide) (by decide) (by decide)

/-- C20, as stated, fails: the size `2^53 + 2` has the imperfect step
`(size-1) mod 7 = 5`, but the step computed through `float64(size-1)` is 4,
so `Perfect size` reads back as `{PerfectT,0}` and not as `{MajorT,0}`. -/
theorem Perfect_eq_Major_counterexample :
    (9007199254740994 - 1 : Int) % 7 = 5 ∧
    Perfect 9007199254740994 = .ok ⟨1286742750677284, 4, 7⟩ ∧
    (Perfect 9007199254740994 >>= Interval.Quality) = .ok ⟨PerfectT, 0⟩ ∧
    (Perfect 9007199254740994 >>= Interval.Quality) ≠ .ok ⟨MajorT, 0⟩ := by
  decide

/-- C20, amended: for every size of at least one, `Perfect size`,
`Major size` and `New size 0` are the same interval and the call returns;
when moreover `size - 1` converts to `float64` exactly (every size up to
`2^53` does), `Perfect` on an imperfect step reads back as `{MajorT,0}` and
`Major` on a perfect-eligible step reads back as `{PerfectT,0}`. -/
theorem Perfect_eq_Major (size : Int) (hs : 1 ≤ size) (hi : IsInt size) :
    Perfect size = New size 0 ∧ Major size = New size 0 ∧
    (∃ i, New size 0 = .ok i) ∧
    (float64 (size - 1) = size - 1 →
      ((size - 1) % 7 = 1 ∨ (size - 1) % 7 = 2 ∨ (size - 1) % 7 = 5 ∨
          (size - 1) % 7 = 6 →
        (Perfect size >>= Interval.Quality) = .ok ⟨MajorT, 0⟩) ∧
      ((size - 1) % 7 = 0 ∨ (size - 1) % 7 = 3 ∨ (size - 1) % 7 = 4 →
        (Major size >>= Interval.Quality) = .ok ⟨PerfectT, 0⟩)) := by
  have hP : Perfect size = New size 0 :=
    qualityInterval_of_diff _ size 0 (by cases perfect _ <;> rfl)
  have hM : Major size = New size 0 :=
    qualityInterval_of_diff _ size 0 (by cases perfect _ <;> rfl)
  obtain ⟨c, -, hN⟩ := New_ok size 0
  refine ⟨hP, hM, ⟨_, hN⟩, ?_⟩
  intro hx
  have hstep := step_of_exact size hs hi hx
  constructor
  · intro hp
    have h : perfect ((size - 1) % 7) = false := by
      rcases hp with h | h | h | h <;> simp [perfect, h]
    rw [hP, New_Quality_of_pos size 0 hs hi (by decide), hstep, h]
    rfl
  · intro hp
    have h : perfect ((size - 1) % 7) = true := by
      rcases hp with h | h | h <;> simp [perfect, h]
    rw [hM, New_Quality_of_pos size 0 hs hi (by decide), hstep, h]
    rfl

/-- C20, amended, at `Third`, where `Perfect Third` reads back as major. -/
theorem Perfect_eq_Major_witness :
    Perfect Third = New Third 0 ∧ Major Third = New Third 0 ∧
    (∃ i, New Third 0 = .ok i) ∧
    (float64 (Third - 1) = Third - 1 →
      ((Third - 1) % 7 = 1 ∨ (Third - 1) % 7 = 2 ∨ (Third - 1) % 7 = 5 ∨
          (Third - 1) % 7 = 6 →
        (Perfect Third >>= Interval.Quality) = .ok ⟨MajorT, 0⟩) ∧
      ((Third - 1) % 7 = 0 ∨ (Third - 1) % 7 = 3 ∨ (Third - 1) % 7 = 4 →
        (Major Third >>= Interval.Quality) = .ok ⟨PerfectT, 0⟩)) :=
  Perfect_eq_Major Third (by decide) (by decide)

end MT
